import Mathlib

/-!
Verification development for the staj-basvuru-otomasyonu repository.

The repository contains three near-identical Python variants of an
internship-application mailer:
  * `Otomasyon/src/data_processor.py`   (pandas-based record reader)
  * `Otomasyon/src/main.py`             (orchestrator, result recorder)
  * `Otomasyon - LLM/src/email_sender.py` and `llm_manager.py`
  * `Otomasyon - Static/staj_basvuru_automator.py`

Below, the relevant Python functions are shallowly embedded as executable
Lean definitions (strings are `String`/`List Char`, pandas NaN is `Option`,
exceptions are `Option`/`Except`, the external SMTP outcome is an oracle
parameter), and the specification claims are settled as theorems about
those definitions.
-/

namespace Staj

/-! ## Character and string utilities shared by the embeddings

`isWs` models Python's ASCII whitespace class (the `\s` regex class and the
characters removed by `str.strip()` for the inputs in scope).  `pyStrip`
models `str.strip()`, `pyCharLower`/`pyLower` model `str.lower()` on the
character repertoire appearing in this repository (ASCII plus the Turkish
letters used by the sources; Python lowers `'İ'` to the two-codepoint
sequence `i` + combining dot above). -/

def isWs (c : Char) : Bool :=
  c = ' ' || c = '\t' || c = '\n' || c = '\r' || c = '\x0b' || c = '\x0c'

def pyStrip (l : List Char) : List Char :=
  ((l.dropWhile isWs).reverse.dropWhile isWs).reverse

def pyStripStr (s : String) : String :=
  ⟨pyStrip s.data⟩

def pyCharLower (c : Char) : List Char :=
  if c = 'İ' then ['i', Char.ofNat 775]
  else if 'A' ≤ c ∧ c ≤ 'Z' then [Char.ofNat (c.toNat + 32)]
  else if c = 'Ö' then ['ö']
  else if c = 'Ü' then ['ü']
  else if c = 'Ç' then ['ç']
  else if c = 'Ğ' then ['ğ']
  else if c = 'Ş' then ['ş']
  else [c]

def pyLower (l : List Char) : List Char :=
  l.flatMap pyCharLower

/-! ## Email validation pattern

`Otomasyon/src/data_processor.py`, `DataProcessor._validate_emails`:
`re.match(r'^[a-zA-Z0-9._%+-]+@[a-zA-Z0-9.-]+\.[a-zA-Z]{2,}$', email)`.
The language of the pattern: exactly one `@`; a nonempty local part over
the first class; a domain whose prefix (up to the last dot) is nonempty
over the second class and whose final segment is two or more letters. -/

def isAlphaChar (c : Char) : Bool :=
  ('a' ≤ c && c ≤ 'z') || ('A' ≤ c && c ≤ 'Z')

def isLocalChar (c : Char) : Bool :=
  isAlphaChar c || ('0' ≤ c && c ≤ '9') || c = '.' || c = '_' || c = '%' || c = '+' || c = '-'

def isDomChar (c : Char) : Bool :=
  isAlphaChar c || ('0' ≤ c && c ≤ '9') || c = '.' || c = '-'

def matchEmailDomain (d : List Char) : Bool :=
  let r := d.reverse
  let t := r.takeWhile (fun c => c ≠ '.')
  match r.drop t.length with
  | '.' :: rp => decide (2 ≤ t.length) && t.all isAlphaChar && decide (rp ≠ []) && rp.all isDomChar
  | _ => false

def matchEmail (s : List Char) : Bool :=
  match s.splitOn '@' with
  | [l, d] => decide (l ≠ []) && l.all isLocalChar && matchEmailDomain d
  | _ => false

/-! ## Record Reader, LLM variant

`Otomasyon/src/data_processor.py`, `DataProcessor._clean_data` and
`_validate_emails`.  A pandas row is a `RawRow` whose cells are
`Option String` (`none` is NaN).  The pipeline: `dropna(how='all')`;
`dropna(subset=['Şirket Adı', 'Mail'])`; for the four text columns
`astype(str).str.strip()` followed by `replace('nan', pd.NA)` (a NaN cell
round-trips to the string `"nan"` and back to NA, so the net effect on a
`none` cell is `none`); `_validate_emails`; `drop_duplicates(subset=['Mail'])`
keeping the first occurrence.  The `Durum` (status) column is carried
through untouched: `_clean_data` never inspects it. -/

structure RawRow where
  sirketAdi : Option String
  adres : Option String
  numara : Option String
  webSitesi : Option String
  mail : Option String
  durum : Option String
  notlar : Option String
deriving DecidableEq, Repr

def cleanCell : Option String → Option String
  | none => none
  | some s => if pyStripStr s = "nan" then none else some (pyStripStr s)

def cleanRowCells (r : RawRow) : RawRow :=
  { r with
    sirketAdi := cleanCell r.sirketAdi
    mail := cleanCell r.mail
    webSitesi := cleanCell r.webSitesi
    notlar := cleanCell r.notlar }

def rowAllNa (r : RawRow) : Bool :=
  r.sirketAdi = none && r.adres = none && r.numara = none && r.webSitesi = none &&
    r.mail = none && r.durum = none && r.notlar = none

def is_valid_email : Option String → Bool
  | none => false
  | some s => if s = "" then false else matchEmail s.data

def dedupGo (seen : List (Option String)) : List RawRow → List RawRow
  | [] => []
  | r :: rs => if r.mail ∈ seen then dedupGo seen rs else r :: dedupGo (r.mail :: seen) rs

def dedupByMail (l : List RawRow) : List RawRow :=
  dedupGo [] l

def clean_data (rows : List RawRow) : List RawRow :=
  dedupByMail
    ((((rows.filter (fun r => ¬ rowAllNa r)).filter
        (fun r => r.sirketAdi ≠ none ∧ r.mail ≠ none)).map cleanRowCells).filter
      (fun r => is_valid_email r.mail))

/-! ## Record Reader, static variant

`Otomasyon - Static/staj_basvuru_automator.py`,
`StajBasvuruOtomasyonu.csv_dosyasini_oku`.  A `csv.DictReader` row is a
`CsvRow` of plain strings (`row.get(col, '')` yields `''` for a missing
column).  Rows are skipped when the stripped company name is empty, when
the stripped mail is empty or a placeholder sentinel, or when the status
is nonempty and its Python-lowercased form contains `"gönderildi"`.
No deduplication and no syntax validation is performed here. -/

structure CsvRow where
  sirketAdi : String
  adres : String
  numara : String
  webSitesi : String
  mail : String
  durum : String
  notlar : String
deriving DecidableEq, Repr

structure SirketBilgisi where
  sirket_adi : String
  adres : String
  numara : String
  web_sitesi : String
  mail : String
  durum : String
  notlar : String
deriving DecidableEq, Repr

def mkSirket (row : CsvRow) : SirketBilgisi :=
  { sirket_adi := pyStripStr row.sirketAdi
    adres := pyStripStr row.adres
    numara := pyStripStr row.numara
    web_sitesi := pyStripStr row.webSitesi
    mail := pyStripStr row.mail
    durum := pyStripStr row.durum
    notlar := pyStripStr row.notlar }

def gonderildiMarker : List Char := "gönderildi".data

def csv_dosyasini_oku (rows : List CsvRow) : List SirketBilgisi :=
  rows.filterMap (fun row =>
    if pyStripStr row.sirketAdi = "" then none
    else
      let s := mkSirket row
      if s.mail = "" ∨ s.mail = "TalepForm" ∨ s.mail = "Talep Form" then none
      else if s.durum ≠ "" ∧ gonderildiMarker <:+: pyLower s.durum.data then none
      else some s)

/-! ## Result Recorder, status rewrite

`Otomasyon - Static/staj_basvuru_automator.py`,
`StajBasvuruOtomasyonu.csv_durumunu_guncelle`.  The store is the list of
`csv.DictReader` rows, each an insertion-ordered association list of
column name to cell (mirroring a Python dict).  For every row whose
stripped company name equals the key, `row['Durum'] = durum` is performed
(update in place if the key exists, append otherwise).  The rows are then
rewritten through a `csv.DictWriter` with the hardcoded field list below:
each output row is the cells in that fixed order (missing keys become
`''`), and a row containing a key outside the field list raises
`ValueError`, which the surrounding handler swallows (the embedding
returns `Except.error ()` for the whole rewrite in that case). -/

def StoreRow : Type := List (String × String)

instance : DecidableEq StoreRow := by
  unfold StoreRow
  infer_instance

def lookupD (row : StoreRow) (k d : String) : String :=
  match row.find? (fun kv => kv.1 = k) with
  | some kv => kv.2
  | none => d

def setKey (k v : String) : StoreRow → StoreRow
  | [] => [(k, v)]
  | kv :: rest => if kv.1 = k then (k, v) :: rest else kv :: setKey k v rest

def fieldnames : List String :=
  ["Şirket Adı", "Adres", "Numara", "Web Sitesi", "Mail", "Durum", "Notlar"]

def updRow (sirket_adi durum : String) (row : StoreRow) : StoreRow :=
  if pyStripStr (lookupD row "Şirket Adı" "") = sirket_adi then setKey "Durum" durum row
  else row

def writerRow (row : StoreRow) : StoreRow :=
  fieldnames.map (fun f => (f, lookupD row f ""))

def rowKeysOk (row : StoreRow) : Bool :=
  row.all (fun kv => kv.1 ∈ fieldnames)

def csv_durumunu_guncelle (store : List StoreRow) (sirket_adi durum : String) :
    Except Unit (List StoreRow) :=
  let updated := store.map (updRow sirket_adi durum)
  if updated.all rowKeysOk then Except.ok (updated.map writerRow) else Except.error ()

/-! ## Text Generator cleanup filter

`Otomasyon - LLM/src/llm_manager.py`, `LLMManager._clean_response`.
The raw response is stripped, split on newlines, and a line is kept only
when its lowercased stripped form contains none of the metadata markers
AND the line is non-blank (`if not should_skip and line.strip()` — blank
lines are dropped entirely).  The kept lines are rejoined with newlines,
`re.sub(r'\n\s*\n', '\n\n', ...)` is applied (modelled char-exactly by
`collapseSub`: at each newline, if the maximal following whitespace run
contains another newline, the match up to the last such newline is
replaced by two newlines), and the result is stripped again. -/

def linesToRemove : List (List Char) :=
  ["konu:".data, "subject:".data, "kimden:".data, "from:".data,
   "kime:".data, "to:".data, "e-posta gövdesi:".data, "email body:".data]

def splitNl : List Char → List (List Char)
  | [] => [[]]
  | c :: rest =>
    if c = '\n' then [] :: splitNl rest
    else
      match splitNl rest with
      | [] => [[c]]
      | p :: ps => (c :: p) :: ps

def joinNl : List (List Char) → List Char
  | [] => []
  | [p] => p
  | p :: ps => p ++ '\n' :: joinNl ps

def keepLine (line : List Char) : Bool :=
  let lineLower := pyStrip (pyLower line)
  !(linesToRemove.any (fun m => decide (m <:+: lineLower))) && decide (pyStrip line ≠ [])

def lastNlSpan (w : List Char) : Nat :=
  w.length - (w.reverse.takeWhile (fun c => c ≠ '\n')).length

def collapseAux : Nat → List Char → List Char
  | _ + 1, [] => []
  | k + 1, _ :: rest => collapseAux k rest
  | 0, [] => []
  | 0, c :: rest =>
    if c = '\n' then
      if '\n' ∈ rest.takeWhile isWs then
        '\n' :: '\n' :: collapseAux (lastNlSpan (rest.takeWhile isWs)) rest
      else '\n' :: collapseAux 0 rest
    else c :: collapseAux 0 rest

def collapseSub (l : List Char) : List Char :=
  collapseAux 0 l

theorem collapseAux_skip :
    ∀ (k : Nat) (l : List Char), collapseAux k l = collapseAux 0 (l.drop k) := by
  intro k
  induction k with
  | zero => intro l; simp
  | succ k ih =>
    intro l
    cases l with
    | nil => simp [collapseAux]
    | cons c rest =>
      rw [collapseAux, List.drop_succ_cons]
      exact ih rest

theorem collapseSub_nil : collapseSub [] = [] := rfl

theorem collapseSub_cons (c : Char) (rest : List Char) :
    collapseSub (c :: rest) =
      if c = '\n' then
        if '\n' ∈ rest.takeWhile isWs then
          '\n' :: '\n' :: collapseSub (rest.drop (lastNlSpan (rest.takeWhile isWs)))
        else '\n' :: collapseSub rest
      else c :: collapseSub rest := by
  show collapseAux 0 (c :: rest) = _
  rw [collapseAux]
  by_cases hc : c = '\n'
  · rw [if_pos hc, if_pos hc]
    by_cases hw : '\n' ∈ rest.takeWhile isWs
    · rw [if_pos hw, if_pos hw, collapseAux_skip]
      rfl
    · rw [if_neg hw, if_neg hw]
      rfl
  · rw [if_neg hc, if_neg hc]
    rfl

def clean_response (response : List Char) : List Char :=
  let cleaned := pyStrip response
  let filtered := (splitNl cleaned).filter keepLine
  pyStrip (collapseSub (joinNl filtered))

/-! ## Message Composer

`Otomasyon - LLM/src/email_sender.py`, `EmailSender._create_email_message`.
The body is `email_body.replace('[AD SOYAD]', applicant_name)`: Python
`str.replace` scans left to right; at a match it emits the replacement and
resumes immediately after the matched occurrence (never rescanning the
emitted replacement), otherwise it emits one character and advances.  The
CV is attached only when the path exists (`os.path.exists`), else only a
warning is logged and the message is built without an attachment. -/

def placeholder : List Char := "[AD SOYAD]".data

def replAux (rep : List Char) : Nat → List Char → List Char
  | _ + 1, [] => []
  | k + 1, _ :: rest => replAux rep k rest
  | 0, [] => []
  | 0, c :: rest =>
    if placeholder <+: (c :: rest) then rep ++ replAux rep (placeholder.length - 1) rest
    else c :: replAux rep 0 rest

def replaceAdSoyad (rep : List Char) (s : List Char) : List Char :=
  replAux rep 0 s

theorem replAux_skip (rep : List Char) :
    ∀ (k : Nat) (l : List Char), replAux rep k l = replAux rep 0 (l.drop k) := by
  intro k
  induction k with
  | zero => intro l; simp
  | succ k ih =>
    intro l
    cases l with
    | nil => simp [replAux]
    | cons c rest =>
      rw [replAux, List.drop_succ_cons]
      exact ih rest

theorem replaceAdSoyad_nil (rep : List Char) : replaceAdSoyad rep [] = [] := rfl

theorem replaceAdSoyad_cons (rep : List Char) (c : Char) (rest : List Char) :
    replaceAdSoyad rep (c :: rest) =
      if placeholder <+: (c :: rest) then
        rep ++ replaceAdSoyad rep ((c :: rest).drop placeholder.length)
      else c :: replaceAdSoyad rep rest := by
  show replAux rep 0 (c :: rest) = _
  rw [replAux]
  by_cases hm : placeholder <+: c :: rest
  · rw [if_pos hm, if_pos hm, replAux_skip]
    rfl
  · rw [if_neg hm, if_neg hm]
    rfl

structure EmailMessage where
  fromAddr : String
  toAddr : String
  subject : String
  body : List Char
  hasAttachment : Bool
deriving DecidableEq, Repr

def create_email_message (senderAddr to_email applicant_name : String)
    (email_body : List Char) (cvExists : Bool) : EmailMessage :=
  { fromAddr := senderAddr
    toAddr := to_email
    subject := "Staj Başvurusu - " ++ applicant_name
    body := replaceAdSoyad applicant_name.data email_body
    hasAttachment := cvExists }

/-! ## Mail Dispatcher, single send

`Otomasyon - LLM/src/email_sender.py`, `EmailSender.send_application_email`.
The entire body sits in a `try` whose handlers cover every `Exception`
subclass and return `False`; no exception escapes.  The externally
determined outcomes are parameters: `attachRead` is the outcome of reading
the CV file inside `_attach_cv` (whose own handler re-raises, so a failure
propagates to the outer handler), consulted only when the path exists, and
`smtp` is the outcome of the SMTP connect/starttls/login/sendmail block.
`True` is returned exactly when message construction and transmission both
complete. -/

inductive MailError where
  | recipientsRefused
  | senderRefused
  | dataError
  | fileNotFound
  | other
deriving DecidableEq, Repr

def send_application_email (cvExists : Bool) (attachRead : Except MailError Unit)
    (smtp : Except MailError Unit) : Bool :=
  match (if cvExists then attachRead else Except.ok ()) with
  | Except.error _ => false
  | Except.ok _ =>
    match smtp with
    | Except.ok _ => true
    | Except.error _ => false

/-! ## Mail Dispatcher, batch loop

`Otomasyon - LLM/src/email_sender.py`, `EmailSender.send_batch_emails`.
`companies_data` entries are Python dicts; `company_info['sirket_adi']`
and `company_info['email']` raise `KeyError` when absent (`Option` fields
model this), landing in the loop's `except` arm, which appends
`company_info.get('sirket_adi', 'Bilinmeyen')` to `failed` and sleeps
`delay_seconds // 2` when more entries follow.  The normal arm records the
boolean outcome of `send_application_email` (an oracle `smtpOk` indexed by
loop position, since the SMTP relay is external) and sleeps the full
`delay_seconds` when more entries follow — for success and for a returned
failure alike.  `total_emails = len(companies_data)` governs both the
sleep guard `i < total_emails - 1` and the final success-rate log line
`total_sent / total_emails * 100`, which raises `ZeroDivisionError` (so
the call never returns) when `companies_data` is empty.  Each loop
iteration is additionally recorded as an `IterTrace` (index, recorded
name, outcome kind, sleep performed) so that pacing and accounting can be
stated. -/

structure CompanyInfo where
  sirket_adi : Option String
  email : Option String
deriving DecidableEq, Repr

structure BatchResult where
  successful : List String
  failed : List String
  total_sent : Nat
  total_failed : Nat
deriving DecidableEq, Repr

inductive IterKind where
  | sent
  | refused
  | raised
deriving DecidableEq, Repr

structure IterTrace where
  idx : Nat
  name : String
  kind : IterKind
  sleep : Option Nat
deriving DecidableEq, Repr

def recordedName (c : CompanyInfo) : String :=
  c.sirket_adi.getD "Bilinmeyen"

def sendBatchFrom (smtpOk : Nat → Bool) (n delay : Nat) :
    Nat → List (CompanyInfo × String) → BatchResult × List IterTrace
  | _, [] => (⟨[], [], 0, 0⟩, [])
  | i, (c, _body) :: rest =>
    let r := sendBatchFrom smtpOk n delay (i + 1) rest
    let sl : Option Nat := if i + 1 < n then some delay else none
    let slHalf : Option Nat := if i + 1 < n then some (delay / 2) else none
    match c.sirket_adi with
    | none =>
      (⟨r.1.successful, "Bilinmeyen" :: r.1.failed, r.1.total_sent, r.1.total_failed + 1⟩,
        ⟨i, "Bilinmeyen", IterKind.raised, slHalf⟩ :: r.2)
    | some nm =>
      match c.email with
      | none =>
        (⟨r.1.successful, nm :: r.1.failed, r.1.total_sent, r.1.total_failed + 1⟩,
          ⟨i, nm, IterKind.raised, slHalf⟩ :: r.2)
      | some _ =>
        if smtpOk i then
          (⟨nm :: r.1.successful, r.1.failed, r.1.total_sent + 1, r.1.total_failed⟩,
            ⟨i, nm, IterKind.sent, sl⟩ :: r.2)
        else
          (⟨r.1.successful, nm :: r.1.failed, r.1.total_sent, r.1.total_failed + 1⟩,
            ⟨i, nm, IterKind.refused, sl⟩ :: r.2)

def send_batch_emails (companies : List CompanyInfo) (bodies : List String)
    (smtpOk : Nat → Bool) (delay : Nat) : Option (BatchResult × List IterTrace × ℚ) :=
  let n := companies.length
  let p := sendBatchFrom smtpOk n delay 0 (companies.zip bodies)
  if n = 0 then none
  else some (p.1, p.2, (p.1.total_sent : ℚ) / (n : ℚ) * 100)

/-! ## Result Recorder, run summary

`Otomasyon/src/main.py`, `InternshipAutomation.save_results`.  The summary
file is written inside a `try`; the success-rate f-string evaluates
`total_sent / (total_sent + total_failed) * 100` with no zero guard, so
for a result with both totals zero the `ZeroDivisionError` lands in the
`except` arm and the summary write is abandoned.  The embedding returns
the written summary, or `none` when the division raises. -/

structure Summary where
  total_sent : Nat
  total_failed : Nat
  rate : ℚ
  successful : List String
  failed : List String
deriving DecidableEq, Repr

def save_results (r : BatchResult) : Option Summary :=
  if r.total_sent + r.total_failed = 0 then none
  else
    some
      { total_sent := r.total_sent
        total_failed := r.total_failed
        rate := (r.total_sent : ℚ) / ((r.total_sent : ℚ) + (r.total_failed : ℚ)) * 100
        successful := r.successful
        failed := r.failed }

/-! ## Helper lemmas about the batch loop -/


theorem sendBatchFrom_counts (smtpOk : Nat → Bool) (n delay : Nat) :
    ∀ (l : List (CompanyInfo × String)) (i : Nat),
      (sendBatchFrom smtpOk n delay i l).1.total_sent =
          (sendBatchFrom smtpOk n delay i l).1.successful.length ∧
        (sendBatchFrom smtpOk n delay i l).1.total_failed =
          (sendBatchFrom smtpOk n delay i l).1.failed.length ∧
        (sendBatchFrom smtpOk n delay i l).1.successful.length +
          (sendBatchFrom smtpOk n delay i l).1.failed.length = l.length ∧
        (sendBatchFrom smtpOk n delay i l).2.length = l.length := by
  intro l
  induction l with
  | nil => intro i; simp [sendBatchFrom]
  | cons hd tl ih =>
    intro i
    obtain ⟨c, body⟩ := hd
    obtain ⟨h1, h2, h3, h4⟩ := ih (i + 1)
    rcases hc : c.sirket_adi with _ | nm
    · refine ⟨?_, ?_, ?_, ?_⟩ <;>
        · simp only [sendBatchFrom, hc, List.length_cons]
          omega
    · rcases he : c.email with _ | em
      · refine ⟨?_, ?_, ?_, ?_⟩ <;>
          · simp only [sendBatchFrom, hc, he, List.length_cons]
            omega
      · by_cases hok : smtpOk i
        · refine ⟨?_, ?_, ?_, ?_⟩ <;>
            · simp only [sendBatchFrom, hc, he, hok, if_true, List.length_cons]
              omega
        · refine ⟨?_, ?_, ?_, ?_⟩ <;>
            · simp only [sendBatchFrom, hc, he, hok, Bool.false_eq_true, if_false,
                List.length_cons]
              omega

theorem sendBatchFrom_perm (smtpOk : Nat → Bool) (n delay : Nat) :
    ∀ (l : List (CompanyInfo × String)) (i : Nat),
      ((sendBatchFrom smtpOk n delay i l).1.successful ++
          (sendBatchFrom smtpOk n delay i l).1.failed).Perm
        (l.map (fun q => recordedName q.1)) := by
  intro l
  induction l with
  | nil => intro i; simp [sendBatchFrom]
  | cons hd tl ih =>
    intro i
    obtain ⟨c, body⟩ := hd
    have hih := ih (i + 1)
    rcases hc : c.sirket_adi with _ | nm
    · simp only [sendBatchFrom, hc, List.map_cons, recordedName, Option.getD_none]
      exact List.perm_middle.trans (hih.cons "Bilinmeyen")
    · rcases he : c.email with _ | em
      · simp only [sendBatchFrom, hc, he, List.map_cons, recordedName, Option.getD_some]
        exact List.perm_middle.trans (hih.cons nm)
      · by_cases hok : smtpOk i
        · simp only [sendBatchFrom, hc, he, hok, if_true, List.map_cons, recordedName,
            Option.getD_some, List.cons_append]
          exact hih.cons nm
        · simp only [sendBatchFrom, hc, he, hok, Bool.false_eq_true, if_false, List.map_cons,
            recordedName, Option.getD_some]
          exact List.perm_middle.trans (hih.cons nm)

theorem sendBatchFrom_idx (smtpOk : Nat → Bool) (n delay : Nat) :
    ∀ (l : List (CompanyInfo × String)) (i : Nat) (t : IterTrace),
      t ∈ (sendBatchFrom smtpOk n delay i l).2 → i ≤ t.idx ∧ t.idx < i + l.length := by
  intro l
  induction l with
  | nil => intro i t ht; simp [sendBatchFrom] at ht
  | cons hd tl ih =>
    intro i t ht
    obtain ⟨c, body⟩ := hd
    rcases hc : c.sirket_adi with _ | nm
    · simp only [sendBatchFrom, hc, List.mem_cons] at ht
      rcases ht with h | h
      · subst h
        refine ⟨le_refl _, ?_⟩
        show i < i + (tl.length + 1)
        omega
      · have := ih (i + 1) t h
        simp only [List.length_cons]
        omega
    · rcases he : c.email with _ | em
      · simp only [sendBatchFrom, hc, he, List.mem_cons] at ht
        rcases ht with h | h
        · subst h
          refine ⟨le_refl _, ?_⟩
          show i < i + (tl.length + 1)
          omega
        · have := ih (i + 1) t h
          simp only [List.length_cons]
          omega
      · by_cases hok : smtpOk i
        · simp only [sendBatchFrom, hc, he, hok, if_true, List.mem_cons] at ht
          rcases ht with h | h
          · subst h
            refine ⟨le_refl _, ?_⟩
            show i < i + (tl.length + 1)
            omega
          · have := ih (i + 1) t h
            simp only [List.length_cons]
            omega
        · simp only [sendBatchFrom, hc, he, hok, Bool.false_eq_true, if_false,
            List.mem_cons] at ht
          rcases ht with h | h
          · subst h
            refine ⟨le_refl _, ?_⟩
            show i < i + (tl.length + 1)
            omega
          · have := ih (i + 1) t h
            simp only [List.length_cons]
            omega

theorem sendBatchFrom_sleep (smtpOk : Nat → Bool) (n delay : Nat) :
    ∀ (l : List (CompanyInfo × String)) (i : Nat) (t : IterTrace),
      t ∈ (sendBatchFrom smtpOk n delay i l).2 →
        t.sleep = if t.idx + 1 < n then
            some (if t.kind = IterKind.raised then delay / 2 else delay)
          else none := by
  intro l
  induction l with
  | nil => intro i t ht; simp [sendBatchFrom] at ht
  | cons hd tl ih =>
    intro i t ht
    obtain ⟨c, body⟩ := hd
    rcases hc : c.sirket_adi with _ | nm
    · simp only [sendBatchFrom, hc, List.mem_cons] at ht
      rcases ht with h | h
      · subst h
        by_cases hlt : i + 1 < n <;> simp [hlt]
      · exact ih (i + 1) t h
    · rcases he : c.email with _ | em
      · simp only [sendBatchFrom, hc, he, List.mem_cons] at ht
        rcases ht with h | h
        · subst h
          by_cases hlt : i + 1 < n <;> simp [hlt]
        · exact ih (i + 1) t h
      · by_cases hok : smtpOk i
        · simp only [sendBatchFrom, hc, he, hok, if_true, List.mem_cons] at ht
          rcases ht with h | h
          · subst h
            by_cases hlt : i + 1 < n <;> simp [hlt]
          · exact ih (i + 1) t h
        · simp only [sendBatchFrom, hc, he, hok, Bool.false_eq_true, if_false,
            List.mem_cons] at ht
          rcases ht with h | h
          · subst h
            by_cases hlt : i + 1 < n <;> simp [hlt]
          · exact ih (i + 1) t h

theorem send_batch_emails_eq (companies : List CompanyInfo) (bodies : List String)
    (smtpOk : Nat → Bool) (delay : Nat) (r : BatchResult) (trace : List IterTrace) (rate : ℚ) :
    send_batch_emails companies bodies smtpOk delay = some (r, trace, rate) →
      companies.length ≠ 0 ∧
        r = (sendBatchFrom smtpOk companies.length delay 0 (companies.zip bodies)).1 ∧
        trace = (sendBatchFrom smtpOk companies.length delay 0 (companies.zip bodies)).2 ∧
        rate = (r.total_sent : ℚ) / (companies.length : ℚ) * 100 := by
  intro h
  simp only [send_batch_emails] at h
  by_cases hn : companies.length = 0
  · rw [if_pos hn] at h
    exact absurd h (by simp)
  · rw [if_neg hn] at h
    have h' := Option.some.inj h
    simp only [Prod.mk.injEq] at h'
    refine ⟨hn, h'.1.symm, h'.2.1.symm, ?_⟩
    rw [← h'.2.2, ← h'.1]

/-! ## Claim C2: batch result invariant -/

/-- C2 counterexample: two sendable companies can share the same display
name (`sirket_adi`), since deduplication is keyed on the email only.  In a
run where the first send succeeds and the second fails, the name `"A"`
appears in both `successful` and `failed`, so the two sequences are not
disjoint as the claim states. -/
theorem spec_c2_counterexample :
    send_batch_emails [⟨some "A", some "a@x.com"⟩, ⟨some "A", some "b@y.com"⟩] ["g1", "g2"]
        (fun i => decide (i = 0)) 30 =
      some (⟨["A"], ["A"], 1, 1⟩,
        [⟨0, "A", IterKind.sent, some 30⟩, ⟨1, "A", IterKind.refused, none⟩],
        ((1 : Nat) : ℚ) / ((2 : Nat) : ℚ) * 100) ∧
      "A" ∈ (["A"] : List String) ∧ "A" ∈ (["A"] : List String) := by
  constructor
  · rfl
  · exact ⟨List.mem_singleton.mpr rfl, List.mem_singleton.mpr rfl⟩

/-- C2 (corrected): for every returned batch result,
`total_sent + total_failed` equals the number of attempted sends (the
zipped pairs), the recorded names are exactly the names of the attempted
companies (as a multiset), and — amended — the successful and failed
sequences are disjoint provided the attempted companies' recorded names
are pairwise distinct (without that proviso the counterexample above
applies). -/
theorem spec_c2_amended (companies : List CompanyInfo) (bodies : List String)
    (smtpOk : Nat → Bool) (delay : Nat) (r : BatchResult) (trace : List IterTrace) (rate : ℚ)
    (h : send_batch_emails companies bodies smtpOk delay = some (r, trace, rate)) :
    r.total_sent + r.total_failed = (companies.zip bodies).length ∧
      (r.successful ++ r.failed).Perm
        ((companies.zip bodies).map (fun q => recordedName q.1)) ∧
      (((companies.zip bodies).map (fun q => recordedName q.1)).Nodup →
        ∀ x ∈ r.successful, x ∉ r.failed) := by
  obtain ⟨hn, hr, htr, hrate⟩ := send_batch_emails_eq companies bodies smtpOk delay r trace rate h
  obtain ⟨h1, h2, h3, h4⟩ :=
    sendBatchFrom_counts smtpOk companies.length delay (companies.zip bodies) 0
  have hperm := sendBatchFrom_perm smtpOk companies.length delay (companies.zip bodies) 0
  subst hr
  refine ⟨by omega, hperm, ?_⟩
  intro hnd
  have hnd2 : ((sendBatchFrom smtpOk companies.length delay 0 (companies.zip bodies)).1.successful ++
      (sendBatchFrom smtpOk companies.length delay 0 (companies.zip bodies)).1.failed).Nodup :=
    hperm.symm.nodup hnd
  have := (List.nodup_append.mp hnd2).2.2
  intro x hx
  exact this hx

/-- C2 witness: the invariant instantiated on a concrete singleton run. -/
theorem spec_c2_witness :
    (⟨["A"], [], 1, 0⟩ : BatchResult).total_sent + (⟨["A"], [], 1, 0⟩ : BatchResult).total_failed =
      (([⟨some "A", some "a@x.com"⟩] : List CompanyInfo).zip ["b"]).length :=
  (spec_c2_amended [⟨some "A", some "a@x.com"⟩] ["b"] (fun _ => true) 5 ⟨["A"], [], 1, 0⟩
    [⟨0, "A", IterKind.sent, none⟩] (((1 : Nat) : ℚ) / ((1 : Nat) : ℚ) * 100) (by rfl)).1

/-! ## Claim C3: summary success rate and the divide-by-zero guard -/

/-- C3 counterexample: `save_results` computes
`total_sent / (total_sent + total_failed) * 100` with no zero guard; on a
batch result with both totals zero the `ZeroDivisionError` is raised
inside the `try` and the summary write is abandoned — it does not
succeed as the claim states. -/
theorem spec_c3_counterexample : save_results ⟨[], [], 0, 0⟩ = none := rfl

/-- C3 (corrected): `save_results` writes the summary with success rate
`total_sent / (total_sent + total_failed) * 100` whenever at least one
send was attempted; there is no divide-by-zero guard, so the all-zero
case aborts the write (see the counterexample). -/
theorem spec_c3_amended (r : BatchResult) (h : 0 < r.total_sent + r.total_failed) :
    save_results r =
      some ⟨r.total_sent, r.total_failed,
        (r.total_sent : ℚ) / ((r.total_sent : ℚ) + (r.total_failed : ℚ)) * 100,
        r.successful, r.failed⟩ := by
  unfold save_results
  rw [if_neg (by omega)]

/-- C3 witness: the amended statement at a concrete one-success result. -/
theorem spec_c3_witness :
    save_results ⟨["A"], [], 1, 0⟩ =
      some ⟨1, 0, ((1 : Nat) : ℚ) / (((1 : Nat) : ℚ) + ((0 : Nat) : ℚ)) * 100, ["A"], []⟩ :=
  spec_c3_amended ⟨["A"], [], 1, 0⟩ (by decide)

/-! ## Claim C5: per-recipient failures never abort the batch -/

/-- C5 (confirmed): for every batch run that returns — under every pattern
of send outcomes, including returned failures and exceptions raised by
missing dictionary keys — every attempted recipient contributes exactly
one recorded outcome: the loop never terminates early, never retries, and
`successful`/`failed`/the iteration trace account for all
`min (len companies) (len bodies)` attempted sends. -/
theorem spec_c5_no_abort (companies : List CompanyInfo) (bodies : List String)
    (smtpOk : Nat → Bool) (delay : Nat) (r : BatchResult) (trace : List IterTrace) (rate : ℚ)
    (h : send_batch_emails companies bodies smtpOk delay = some (r, trace, rate)) :
    r.successful.length + r.failed.length = (companies.zip bodies).length ∧
      trace.length = (companies.zip bodies).length ∧
      r.total_sent = r.successful.length ∧
      r.total_failed = r.failed.length := by
  obtain ⟨hn, hr, htr, hrate⟩ := send_batch_emails_eq companies bodies smtpOk delay r trace rate h
  obtain ⟨h1, h2, h3, h4⟩ :=
    sendBatchFrom_counts smtpOk companies.length delay (companies.zip bodies) 0
  subst hr
  subst htr
  exact ⟨h3, h4, h1, h2⟩

/-- C5 witness: a concrete three-recipient run mixing a returned failure,
a raised exception (missing email key) and a success still records all
three outcomes. -/
theorem spec_c5_witness :
    (⟨["C"], ["A", "B"], 1, 2⟩ : BatchResult).successful.length +
        (⟨["C"], ["A", "B"], 1, 2⟩ : BatchResult).failed.length =
      (([⟨some "A", some "a@x.com"⟩, ⟨some "B", none⟩, ⟨some "C", some "c@x.com"⟩] :
          List CompanyInfo).zip ["g1", "g2", "g3"]).length :=
  (spec_c5_no_abort [⟨some "A", some "a@x.com"⟩, ⟨some "B", none⟩, ⟨some "C", some "c@x.com"⟩]
    ["g1", "g2", "g3"] (fun i => decide (i = 2)) 10 ⟨["C"], ["A", "B"], 1, 2⟩
    [⟨0, "A", IterKind.refused, some 10⟩, ⟨1, "B", IterKind.raised, some 5⟩,
      ⟨2, "C", IterKind.sent, none⟩] (((1 : Nat) : ℚ) / ((3 : Nat) : ℚ) * 100) (by rfl)).1

/-! ## Claim C6: pacing delays -/

/-- C6 counterexample: with `delay_seconds = 30`, a run containing a
returned send failure (full 30 s sleep) and an exception-path failure
(15 s sleep) shows that no single per-failure delay policy — neither
always-full nor always-half — holds for the failed sends, contrary to the
claim's consistency requirement. -/
theorem spec_c6_counterexample :
    send_batch_emails [⟨some "A", some "a@x.com"⟩, ⟨some "B", none⟩, ⟨some "C", some "c@x.com"⟩]
        ["g1", "g2", "g3"] (fun _ => false) 30 =
      some (⟨[], ["A", "B", "C"], 0, 3⟩,
        [⟨0, "A", IterKind.refused, some 30⟩, ⟨1, "B", IterKind.raised, some 15⟩,
          ⟨2, "C", IterKind.refused, none⟩],
        ((0 : Nat) : ℚ) / ((3 : Nat) : ℚ) * 100) ∧
      ¬ ((∀ t ∈ ([⟨0, "A", IterKind.refused, some 30⟩, ⟨1, "B", IterKind.raised, some 15⟩,
              ⟨2, "C", IterKind.refused, none⟩] : List IterTrace),
            t.kind ≠ IterKind.sent → t.idx + 1 < 3 → t.sleep = some 30) ∨
        (∀ t ∈ ([⟨0, "A", IterKind.refused, some 30⟩, ⟨1, "B", IterKind.raised, some 15⟩,
              ⟨2, "C", IterKind.refused, none⟩] : List IterTrace),
            t.kind ≠ IterKind.sent → t.idx + 1 < 3 → t.sleep = some (30 / 2))) := by
  refine ⟨by rfl, ?_⟩
  decide

/-- C6 (corrected): after every iteration except the last
(`i + 1 < len companies_data`) the dispatcher sleeps; the amount is the
full `delay_seconds` on the normal path — both for a successful send and
for a send that returned failure — and `delay_seconds // 2` only on the
exception path.  The half delay is therefore tied to raised exceptions,
not applied consistently to every failed send. -/
theorem spec_c6_amended (companies : List CompanyInfo) (bodies : List String)
    (smtpOk : Nat → Bool) (delay : Nat) (r : BatchResult) (trace : List IterTrace) (rate : ℚ)
    (h : send_batch_emails companies bodies smtpOk delay = some (r, trace, rate)) :
    ∀ t ∈ trace,
      t.sleep = if t.idx + 1 < companies.length then
          some (if t.kind = IterKind.raised then delay / 2 else delay)
        else none := by
  obtain ⟨hn, hr, htr, hrate⟩ := send_batch_emails_eq companies bodies smtpOk delay r trace rate h
  subst htr
  intro t ht
  exact sendBatchFrom_sleep smtpOk companies.length delay (companies.zip bodies) 0 t ht

/-- C6 witness: the pacing rule instantiated on the first iteration of a
concrete two-recipient run. -/
theorem spec_c6_witness :
    (⟨0, "A", IterKind.sent, some 8⟩ : IterTrace).sleep =
      if (⟨0, "A", IterKind.sent, some 8⟩ : IterTrace).idx + 1 <
          ([⟨some "A", some "a@x.com"⟩, ⟨some "B", some "b@x.com"⟩] : List CompanyInfo).length then
        some (if (⟨0, "A", IterKind.sent, some 8⟩ : IterTrace).kind = IterKind.raised then
            8 / 2 else 8)
      else none :=
  spec_c6_amended [⟨some "A", some "a@x.com"⟩, ⟨some "B", some "b@x.com"⟩] ["g1", "g2"]
    (fun _ => true) 8 ⟨["A", "B"], [], 2, 0⟩
    [⟨0, "A", IterKind.sent, some 8⟩, ⟨1, "B", IterKind.sent, none⟩]
    (((2 : Nat) : ℚ) / ((2 : Nat) : ℚ) * 100) (by rfl)
    ⟨0, "A", IterKind.sent, some 8⟩ (by simp)

/-! ## Claim C9: positional pairing and zip truncation -/

theorem map_fst_zip_take {α β : Type} :
    ∀ (l₁ : List α) (l₂ : List β), (l₁.zip l₂).map Prod.fst = l₁.take l₂.length := by
  intro l₁
  induction l₁ with
  | nil => intro l₂; simp
  | cons a l₁ ih =>
    intro l₂
    cases l₂ with
    | nil => simp
    | cons b l₂ => simp [ih l₂]

/-- C9 (confirmed): `send_batch_emails` pairs companies with bodies by
position: exactly `min (len companies) (len bodies)` sends are attempted,
every trace entry's index lies below that bound (the excess entries of the
longer list are never attempted), the recorded names are exactly the names
of the attempted prefix of `companies_data`, and the logged success rate
divides by `len companies_data` — not by the number of attempted sends. -/
theorem spec_c9_zip_truncation (companies : List CompanyInfo) (bodies : List String)
    (smtpOk : Nat → Bool) (delay : Nat) (r : BatchResult) (trace : List IterTrace) (rate : ℚ)
    (h : send_batch_emails companies bodies smtpOk delay = some (r, trace, rate)) :
    trace.length = min companies.length bodies.length ∧
      (∀ t ∈ trace, t.idx < min companies.length bodies.length) ∧
      (r.successful ++ r.failed).Perm ((companies.take bodies.length).map recordedName) ∧
      rate = (r.total_sent : ℚ) / (companies.length : ℚ) * 100 := by
  obtain ⟨hn, hr, htr, hrate⟩ := send_batch_emails_eq companies bodies smtpOk delay r trace rate h
  obtain ⟨h1, h2, h3, h4⟩ :=
    sendBatchFrom_counts smtpOk companies.length delay (companies.zip bodies) 0
  have hperm := sendBatchFrom_perm smtpOk companies.length delay (companies.zip bodies) 0
  have hzip : (companies.zip bodies).length = min companies.length bodies.length := by
    simp [List.length_zip]
  subst hr
  subst htr
  refine ⟨by omega, ?_, ?_, hrate⟩
  · intro t ht
    have := sendBatchFrom_idx smtpOk companies.length delay (companies.zip bodies) 0 t ht
    omega
  · have hmap : (companies.zip bodies).map (fun q => recordedName q.1) =
        (companies.take bodies.length).map recordedName := by
      rw [show (fun q : CompanyInfo × String => recordedName q.1) =
            recordedName ∘ Prod.fst from rfl, ← List.map_map, map_fst_zip_take]
    rw [← hmap]
    exact hperm

/-- C9 witness: two companies paired with a single body attempt exactly
one send, and the logged rate still divides by the company count. -/
theorem spec_c9_witness :
    ([⟨0, "A", IterKind.sent, some 7⟩] : List IterTrace).length =
      min ([⟨some "A", some "a@x.com"⟩, ⟨some "B", some "b@x.com"⟩] : List CompanyInfo).length
        (["g1"] : List String).length ∧
      ((1 : Nat) : ℚ) / ((2 : Nat) : ℚ) * 100 =
        ((⟨["A"], [], 1, 0⟩ : BatchResult).total_sent : ℚ) /
          (([⟨some "A", some "a@x.com"⟩, ⟨some "B", some "b@x.com"⟩] :
              List CompanyInfo).length : ℚ) * 100 :=
  ⟨(spec_c9_zip_truncation [⟨some "A", some "a@x.com"⟩, ⟨some "B", some "b@x.com"⟩] ["g1"]
      (fun _ => true) 7 ⟨["A"], [], 1, 0⟩ [⟨0, "A", IterKind.sent, some 7⟩]
      (((1 : Nat) : ℚ) / ((2 : Nat) : ℚ) * 100) (by rfl)).1,
    (spec_c9_zip_truncation [⟨some "A", some "a@x.com"⟩, ⟨some "B", some "b@x.com"⟩] ["g1"]
      (fun _ => true) 7 ⟨["A"], [], 1, 0⟩ [⟨0, "A", IterKind.sent, some 7⟩]
      (((1 : Nat) : ℚ) / ((2 : Nat) : ℚ) * 100) (by rfl)).2.2.2⟩

/-! ## Claim C10: single-send totality -/

/-- C10 (confirmed): `send_application_email` is total over errors: every
outcome — including a missing CV path (`cvExists = false`, which merely
skips the attachment), a CV read failure, and every SMTP failure kind — is
converted to a boolean by the function's exception handlers, and `true` is
returned exactly when message construction did not raise and the SMTP
transmission block completed. -/
theorem spec_c10_send_total :
    ∀ (cvExists : Bool) (attachRead smtp : Except MailError Unit),
      send_application_email cvExists attachRead smtp = true ↔
        ((cvExists = true → attachRead = Except.ok ()) ∧ smtp = Except.ok ()) := by
  intro cvExists attachRead smtp
  cases cvExists <;> rcases attachRead with e | u <;> rcases smtp with e2 | u2 <;>
    simp [send_application_email]

/-! ## Claim C1: Record Reader filtering -/

theorem dedupGo_subset :
    ∀ (seen : List (Option String)) (l : List RawRow) (r : RawRow),
      r ∈ dedupGo seen l → r ∈ l := by
  intro seen l
  induction l generalizing seen with
  | nil => intro r h; simp [dedupGo] at h
  | cons a l ih =>
    intro r h
    simp only [dedupGo] at h
    by_cases hm : a.mail ∈ seen
    · rw [if_pos hm] at h
      exact List.mem_cons_of_mem a (ih seen r h)
    · rw [if_neg hm] at h
      rcases List.mem_cons.mp h with h1 | h1
      · exact h1 ▸ List.mem_cons_self a l
      · exact List.mem_cons_of_mem a (ih _ r h1)

theorem dedupGo_not_seen :
    ∀ (seen : List (Option String)) (l : List RawRow) (r : RawRow),
      r ∈ dedupGo seen l → r.mail ∉ seen := by
  intro seen l
  induction l generalizing seen with
  | nil => intro r h; simp [dedupGo] at h
  | cons a l ih =>
    intro r h
    simp only [dedupGo] at h
    by_cases hm : a.mail ∈ seen
    · rw [if_pos hm] at h
      exact ih seen r h
    · rw [if_neg hm] at h
      rcases List.mem_cons.mp h with h1 | h1
      · subst h1; exact hm
      · intro hr
        exact ih _ r h1 (List.mem_cons_of_mem _ hr)

theorem dedupGo_nodup :
    ∀ (seen : List (Option String)) (l : List RawRow),
      ((dedupGo seen l).map RawRow.mail).Nodup := by
  intro seen l
  induction l generalizing seen with
  | nil => simp [dedupGo]
  | cons a l ih =>
    simp only [dedupGo]
    by_cases hm : a.mail ∈ seen
    · rw [if_pos hm]
      exact ih seen
    · rw [if_neg hm]
      simp only [List.map_cons, List.nodup_cons]
      refine ⟨?_, ih (a.mail :: seen)⟩
      intro hmem
      obtain ⟨x, hx, hxm⟩ := List.mem_map.mp hmem
      exact dedupGo_not_seen _ _ x hx (hxm ▸ List.mem_cons_self _ _)

theorem csv_oku_mem (rows : List CsvRow) (s : SirketBilgisi)
    (hs : s ∈ csv_dosyasini_oku rows) :
    s.mail ≠ "" ∧ s.mail ≠ "TalepForm" ∧ s.mail ≠ "Talep Form" ∧
      ¬ gonderildiMarker <:+: pyLower s.durum.data := by
  simp only [csv_dosyasini_oku, List.mem_filterMap] at hs
  obtain ⟨row, _, hrow⟩ := hs
  by_cases h1 : pyStripStr row.sirketAdi = ""
  · rw [if_pos h1] at hrow
    cases hrow
  · rw [if_neg h1] at hrow
    by_cases h2 : (mkSirket row).mail = "" ∨ (mkSirket row).mail = "TalepForm" ∨
        (mkSirket row).mail = "Talep Form"
    · rw [if_pos h2] at hrow
      cases hrow
    · rw [if_neg h2] at hrow
      by_cases h3 : (mkSirket row).durum ≠ "" ∧
          gonderildiMarker <:+: pyLower (mkSirket row).durum.data
      · rw [if_pos h3] at hrow
        cases hrow
      · rw [if_neg h3] at hrow
        have hse : mkSirket row = s := Option.some.inj hrow
        subst hse
        push_neg at h2 h3
        refine ⟨h2.1, h2.2.1, h2.2.2, ?_⟩
        by_cases hd : (mkSirket row).durum = ""
        · rw [hd]
          intro hinf
          have : gonderildiMarker = [] := by
            simpa using List.eq_nil_of_infix_nil (by simpa [pyLower] using hinf)
          exact absurd this (by decide)
        · exact h3 hd

/-- C1 counterexample: the two cited Record Reader implementations each
violate one conjunct of the claim.  The static-variant reader performs no
deduplication, so two rows with the same email both reach the sendable
set; and the LLM-variant cleaner never inspects the status column, so a
row already marked `"Türkçe mail gönderildi"` survives into its sendable
set. -/
theorem spec_c1_counterexample :
    (csv_dosyasini_oku [⟨"A", "", "", "", "a@x.com", "", ""⟩,
        ⟨"B", "", "", "", "a@x.com", "", ""⟩]).map SirketBilgisi.mail = ["a@x.com", "a@x.com"] ∧
      ¬ ((csv_dosyasini_oku [⟨"A", "", "", "", "a@x.com", "", ""⟩,
          ⟨"B", "", "", "", "a@x.com", "", ""⟩]).map SirketBilgisi.mail).Nodup ∧
      clean_data
          [⟨some "A", none, none, none, some "a@x.com", some "Türkçe mail gönderildi", none⟩] =
        [⟨some "A", none, none, none, some "a@x.com", some "Türkçe mail gönderildi", none⟩] ∧
      gonderildiMarker <:+: pyLower "Türkçe mail gönderildi".data := by
  refine ⟨by decide, by decide, by decide, by decide⟩

/-- C1 (corrected): each variant guarantees its own subset of the claimed
filters.  The static-variant sendable set contains no row with empty
email, no placeholder sentinel, and no row whose status contains the sent
marker (in Python-lowercased form); the LLM-variant sendable set contains
only rows whose email passes the validation pattern — which excludes
empty and sentinel values — and no two rows with the same email.  Neither
variant guarantees all four conjuncts: dedup is missing from the static
variant and the sent-status filter from the LLM variant. -/
theorem spec_c1_amended (rows₁ : List CsvRow) (rows₂ : List RawRow) :
    (∀ s ∈ csv_dosyasini_oku rows₁,
        s.mail ≠ "" ∧ s.mail ≠ "TalepForm" ∧ s.mail ≠ "Talep Form" ∧
          ¬ gonderildiMarker <:+: pyLower s.durum.data) ∧
      (∀ r ∈ clean_data rows₂, is_valid_email r.mail = true) ∧
      ((clean_data rows₂).map RawRow.mail).Nodup := by
  refine ⟨fun s hs => csv_oku_mem rows₁ s hs, ?_, ?_⟩
  · intro r hr
    have hr2 := dedupGo_subset [] _ r hr
    exact (List.mem_filter.mp hr2).2
  · exact dedupGo_nodup [] _

/-- C1 witness: the guarantees instantiated on a concrete valid row of
each reader. -/
theorem spec_c1_witness :
    ("a@x.com" : String) ≠ "" ∧ ("a@x.com" : String) ≠ "TalepForm" ∧
      ("a@x.com" : String) ≠ "Talep Form" ∧
      ¬ gonderildiMarker <:+: pyLower ("" : String).data :=
  (spec_c1_amended [⟨"A", "", "", "", "a@x.com", "", ""⟩] []).1
    ⟨"A", "", "", "", "a@x.com", "", ""⟩ (by decide)

/-! ## Claim C8: status update frame conditions -/

theorem lookupD_cons (k v f d : String) (rest : List (String × String)) :
    lookupD ((k, v) :: rest) f d = if k = f then v else lookupD rest f d := by
  simp only [lookupD, List.find?]
  by_cases h : k = f
  · simp [h]
  · simp [h, lookupD]

theorem setKey_map_fst (k v : String) :
    ∀ row : StoreRow, k ∈ row.map Prod.fst →
      (setKey k v row).map Prod.fst = row.map Prod.fst := by
  intro row
  induction row with
  | nil => intro h; simp at h
  | cons kv rest ih =>
    intro h
    obtain ⟨k1, v1⟩ := kv
    simp only [setKey]
    by_cases hk : k1 = k
    · rw [if_pos hk]
      simp [hk]
    · rw [if_neg hk]
      simp only [List.map_cons]
      rw [ih ?_]
      simp only [List.map_cons] at h
      rcases List.mem_cons.mp h with h1 | h1
      · exact absurd h1.symm hk
      · exact h1

theorem lookupD_setKey_self (k v d : String) :
    ∀ row : StoreRow, lookupD (setKey k v row) k d = v := by
  intro row
  induction row with
  | nil => simp [setKey, lookupD_cons]
  | cons kv rest ih =>
    obtain ⟨k1, v1⟩ := kv
    simp only [setKey]
    by_cases hk : k1 = k
    · rw [if_pos hk, lookupD_cons, if_pos rfl]
    · rw [if_neg hk, lookupD_cons, if_neg hk]
      exact ih

theorem lookupD_setKey_other (k v f d : String) (hf : f ≠ k) :
    ∀ row : StoreRow, lookupD (setKey k v row) f d = lookupD row f d := by
  intro row
  induction row with
  | nil =>
    rw [show setKey k v [] = [(k, v)] from rfl, lookupD_cons, if_neg (fun h => hf h.symm)]
  | cons kv rest ih =>
    obtain ⟨k1, v1⟩ := kv
    simp only [setKey]
    by_cases hk : k1 = k
    · have h1 : ¬ k = f := fun h => hf h.symm
      have h2 : ¬ k1 = f := fun h => h1 (hk ▸ h)
      rw [if_pos hk, lookupD_cons, lookupD_cons, if_neg h1, if_neg h2]
    · rw [if_neg hk, lookupD_cons, lookupD_cons]
      by_cases h2 : k1 = f
      · rw [if_pos h2, if_pos h2]
      · rw [if_neg h2, if_neg h2]
        exact ih

theorem map_lookup_of_wf :
    ∀ (fs : List String) (row : StoreRow), row.map Prod.fst = fs → fs.Nodup →
      fs.map (fun f => (f, lookupD row f "")) = row := by
  intro fs
  induction fs with
  | nil =>
    intro row h _
    rw [List.map_eq_nil_iff] at h
    simp [h]
  | cons k fs ih =>
    intro row h hnd
    cases row with
    | nil => simp at h
    | cons kv rest =>
      obtain ⟨k1, v1⟩ := kv
      simp only [List.map_cons, List.cons.injEq] at h
      obtain ⟨h1, h2⟩ := h
      obtain ⟨hk, hfs⟩ := List.nodup_cons.mp hnd
      simp only [List.map_cons, List.cons.injEq]
      constructor
      · rw [lookupD_cons, h1, if_pos rfl]
      · rw [List.map_congr_left (fun f hf => ?_), ih rest h2 hfs]
        rw [lookupD_cons, h1, if_neg ?_]
        intro heq
        exact hk (heq ▸ hf)

theorem writerRow_of_wf (row : StoreRow) (h : row.map Prod.fst = fieldnames) :
    writerRow row = row :=
  map_lookup_of_wf fieldnames row h (by decide)

theorem updRow_wf (key durum : String) (row : StoreRow) (h : row.map Prod.fst = fieldnames) :
    (updRow key durum row).map Prod.fst = fieldnames := by
  unfold updRow
  by_cases hm : pyStripStr (lookupD row "Şirket Adı" "") = key
  · rw [if_pos hm, setKey_map_fst "Durum" durum row (by rw [h]; decide)]
    exact h
  · rw [if_neg hm]
    exact h

theorem rowKeysOk_of_wf (row : StoreRow) (h : row.map Prod.fst = fieldnames) :
    rowKeysOk row = true := by
  unfold rowKeysOk
  rw [List.all_eq_true]
  intro kv hkv
  have hmem : kv.1 ∈ row.map Prod.fst := List.mem_map_of_mem Prod.fst hkv
  rw [h] at hmem
  exact decide_eq_true hmem

/-- C8 counterexample: on a store row whose columns are not in the
hardcoded canonical layout, the rewrite changes an unrelated row (the key
`"X"` matches nothing): the two original columns are reordered into the
canonical order and five empty columns are invented, so neither the
original column order nor the unrelated row's contents survive. -/
theorem spec_c8_counterexample :
    csv_durumunu_guncelle [[("Mail", "a@x.com"), ("Şirket Adı", "B")]] "X" "S" =
      Except.ok [[("Şirket Adı", "B"), ("Adres", ""), ("Numara", ""), ("Web Sitesi", ""),
        ("Mail", "a@x.com"), ("Durum", ""), ("Notlar", "")]] ∧
      ([("Şirket Adı", "B"), ("Adres", ""), ("Numara", ""), ("Web Sitesi", ""),
          ("Mail", "a@x.com"), ("Durum", ""), ("Notlar", "")] : List (String × String)) ≠
        [("Mail", "a@x.com"), ("Şirket Adı", "B")] := by
  refine ⟨by rfl, by decide⟩

/-- C8 (corrected): for stores whose rows carry exactly the canonical
columns in canonical order, `csv_durumunu_guncelle` rewrites every row
whose stripped company name equals the key, changing only the `Durum`
cell, and returns all other rows unchanged, preserving row count and
order.  On a store with reordered, missing or extra columns the rewrite
is not content-preserving (see the counterexample). -/
theorem spec_c8_amended (store : List StoreRow) (key durum : String)
    (hwf : ∀ row ∈ store, row.map Prod.fst = fieldnames) :
    csv_durumunu_guncelle store key durum = Except.ok (store.map (updRow key durum)) ∧
      (∀ row ∈ store, pyStripStr (lookupD row "Şirket Adı" "") ≠ key →
        updRow key durum row = row) ∧
      (∀ row ∈ store, pyStripStr (lookupD row "Şirket Adı" "") = key →
        updRow key durum row = setKey "Durum" durum row ∧
          (setKey "Durum" durum row).map Prod.fst = row.map Prod.fst ∧
          lookupD (setKey "Durum" durum row) "Durum" "" = durum ∧
          ∀ f, f ≠ "Durum" →
            lookupD (setKey "Durum" durum row) f "" = lookupD row f "") := by
  refine ⟨?_, ?_, ?_⟩
  · have hall : (store.map (updRow key durum)).all rowKeysOk = true := by
      rw [List.all_eq_true]
      intro row hrow
      obtain ⟨row0, hrow0, hmap⟩ := List.mem_map.mp hrow
      exact rowKeysOk_of_wf row (hmap ▸ updRow_wf key durum row0 (hwf row0 hrow0))
    simp only [csv_durumunu_guncelle, hall, if_true, List.map_map, Except.ok.injEq]
    rw [List.map_congr_left (fun row hrow => ?_)]
    show writerRow (updRow key durum row) = updRow key durum row
    exact writerRow_of_wf _ (updRow_wf key durum row (hwf row hrow))
  · intro row hrow hne
    unfold updRow
    rw [if_neg hne]
  · intro row hrow heq
    refine ⟨by unfold updRow; rw [if_pos heq], ?_, lookupD_setKey_self _ _ _ row,
      fun f hf => lookupD_setKey_other _ _ _ _ hf row⟩
    exact setKey_map_fst "Durum" durum row (by rw [hwf row hrow]; decide)

/-- C8 witness: the frame conditions instantiated on a concrete
single-row canonical store. -/
theorem spec_c8_witness :
    csv_durumunu_guncelle
        [[("Şirket Adı", "B"), ("Adres", ""), ("Numara", ""), ("Web Sitesi", ""),
          ("Mail", "a@x.com"), ("Durum", ""), ("Notlar", "")]] "B" "Sent" =
      Except.ok
        ([[("Şirket Adı", "B"), ("Adres", ""), ("Numara", ""), ("Web Sitesi", ""),
          ("Mail", "a@x.com"), ("Durum", ""), ("Notlar", "")]].map (updRow "B" "Sent")) :=
  (spec_c8_amended
    [[("Şirket Adı", "B"), ("Adres", ""), ("Numara", ""), ("Web Sitesi", ""),
      ("Mail", "a@x.com"), ("Durum", ""), ("Notlar", "")]] "B" "Sent"
    (by intro row hrow; simp only [List.mem_singleton] at hrow; rw [hrow]; decide)).1

/-! ## Claim C7: placeholder substitution

Python `str.replace` never rescans emitted replacement text, so every
occurrence of `'[AD SOYAD]'` present in the input is replaced — but the
juxtaposition of surrounding text with the replacement can synthesize a
fresh occurrence.  The lemmas below characterize when that cannot happen:
the applicant name contains neither bracket and is not itself a substring
of the placeholder. -/

def phTail : List Char := "AD SOYAD]".data

theorem placeholder_eq : placeholder = '[' :: phTail := rfl

theorem prefix_append_cases {α : Type} {t A B : List α} (h : t <+: A ++ B) :
    t <+: A ∨ A <+: t := by
  by_cases hl : t.length ≤ A.length
  · exact Or.inl (List.prefix_of_prefix_length_le h (A.prefix_append B) hl)
  · exact Or.inr (List.prefix_of_prefix_length_le (A.prefix_append B) h (Nat.le_of_not_le hl))

theorem ph_infix_append {A B : List Char} (hA : '[' ∉ A)
    (h : placeholder <:+: A ++ B) : placeholder <:+: B := by
  induction A with
  | nil => simpa using h
  | cons a A ih =>
    rw [List.cons_append] at h
    rcases List.infix_cons_iff.mp h with h1 | h1
    · rw [placeholder_eq] at h1
      obtain ⟨heq, _⟩ := List.cons_prefix_cons.mp h1
      exact absurd (by rw [← heq]; exact List.mem_cons_self _ _) hA
    · exact ih (fun hm => hA (List.mem_cons_of_mem a hm)) h1

theorem suffix_ph_mem_rb {t : List Char} (ht : t <:+ placeholder) (hne : t ≠ []) :
    ']' ∈ t := by
  obtain ⟨u, hu⟩ := ht
  rcases List.eq_nil_or_concat t with rfl | ⟨t0, x, rfl⟩
  · exact absurd rfl hne
  · have hx : x = ']' := by
      have h1 : placeholder.getLast? = some x := by
        rw [← hu, List.concat_eq_append, ← List.append_assoc]
        exact List.getLast?_concat _
      have h2 : placeholder.getLast? = some ']' := by decide
      exact Option.some.inj (h1.symm.trans h2)
    rw [List.concat_eq_append, hx]
    simp

theorem suffix_tail_ph {x : Char} {t2 : List Char} (h : x :: t2 <:+ placeholder) :
    t2 <:+ placeholder := by
  obtain ⟨u, hu⟩ := h
  exact ⟨u ++ [x], by rw [← hu]; simp⟩

theorem suffix_prefix_out (rep : List Char) (h2 : ']' ∉ rep)
    (h3 : ¬ rep <:+: placeholder) :
    ∀ (n : Nat) (s t : List Char), s.length ≤ n → t ≠ [] → t <:+ placeholder →
      t <+: replaceAdSoyad rep s → t <+: s := by
  intro n
  induction n with
  | zero =>
    intro s t hs hne hsuf hpre
    have hz : s = [] := List.length_eq_zero.mp (Nat.le_zero.mp hs)
    subst hz
    rw [replaceAdSoyad_nil, List.prefix_nil] at hpre
    exact absurd hpre hne
  | succ n ih =>
    intro s t hs hne hsuf hpre
    cases s with
    | nil =>
      rw [replaceAdSoyad_nil, List.prefix_nil] at hpre
      exact absurd hpre hne
    | cons c rest =>
      rw [replaceAdSoyad_cons] at hpre
      by_cases hm : placeholder <+: c :: rest
      · rw [if_pos hm] at hpre
        rcases prefix_append_cases hpre with hp | hp
        · exact absurd (hp.subset (suffix_ph_mem_rb hsuf hne)) h2
        · exact absurd (hp.isInfix.trans hsuf.isInfix) h3
      · rw [if_neg hm] at hpre
        cases t with
        | nil => exact absurd rfl hne
        | cons x t2 =>
          obtain ⟨heq, hpre2⟩ := List.cons_prefix_cons.mp hpre
          by_cases ht2 : t2 = []
          · subst ht2
            exact List.cons_prefix_cons.mpr ⟨heq, List.nil_prefix⟩
          · have hlen : rest.length ≤ n := by
              have := List.length_cons c rest ▸ hs
              omega
            have := ih rest t2 hlen ht2 (suffix_tail_ph hsuf) hpre2
            exact List.cons_prefix_cons.mpr ⟨heq, this⟩

theorem replace_no_placeholder (rep : List Char) (h1 : '[' ∉ rep) (h2 : ']' ∉ rep)
    (h3 : ¬ rep <:+: placeholder) :
    ∀ (n : Nat) (s : List Char), s.length ≤ n →
      ¬ placeholder <:+: replaceAdSoyad rep s := by
  intro n
  induction n with
  | zero =>
    intro s hs h
    have hz : s = [] := List.length_eq_zero.mp (Nat.le_zero.mp hs)
    subst hz
    rw [replaceAdSoyad_nil] at h
    exact absurd (List.eq_nil_of_infix_nil h) (by decide)
  | succ n ih =>
    intro s hs h
    cases s with
    | nil =>
      rw [replaceAdSoyad_nil] at h
      exact absurd (List.eq_nil_of_infix_nil h) (by decide)
    | cons c rest =>
      rw [replaceAdSoyad_cons] at h
      by_cases hm : placeholder <+: c :: rest
      · rw [if_pos hm] at h
        have hB := ph_infix_append h1 h
        have hlen : ((c :: rest).drop placeholder.length).length ≤ n := by
          have hp : placeholder.length = 10 := rfl
          rw [List.length_drop, hp, List.length_cons]
          have := List.length_cons c rest ▸ hs
          omega
        exact ih _ hlen hB
      · rw [if_neg hm] at h
        rcases List.infix_cons_iff.mp h with hp | hp
        · rw [placeholder_eq] at hp
          obtain ⟨heq, hp2⟩ := List.cons_prefix_cons.mp hp
          have hsufT : phTail <:+ placeholder := ⟨['['], rfl⟩
          have hlen : rest.length ≤ n := by
            have := List.length_cons c rest ▸ hs
            omega
          have hTpre := suffix_prefix_out rep h2 h3 n rest phTail hlen (by decide)
            hsufT hp2
          exact hm (by rw [placeholder_eq]; exact List.cons_prefix_cons.mpr ⟨heq, hTpre⟩)
        · have hlen : rest.length ≤ n := by
            have := List.length_cons c rest ▸ hs
            omega
          exact ih rest hlen hp

/-- C7 counterexample: the claim's caveat is too weak.  With applicant
name `"SOYA"` — which does not contain the placeholder — and body
`"[AD [AD SOYAD]D]"`, Python's left-to-right replace produces exactly
`"[AD SOYAD]"`: the replacement glues with the surrounding text into a
fresh placeholder occurrence in the finalized body. -/
theorem spec_c7_counterexample :
    (create_email_message "me@x.com" "a@x.com" "SOYA" "[AD [AD SOYAD]D]".data true).body =
        "[AD SOYAD]".data ∧
      placeholder <:+:
        (create_email_message "me@x.com" "a@x.com" "SOYA" "[AD [AD SOYAD]D]".data true).body ∧
      ¬ placeholder <:+: "SOYA".data := by
  refine ⟨by rfl, by decide, by decide⟩

/-- C7 (corrected): the composed body never contains the literal
`'[AD SOYAD]'`, provided the applicant's name contains neither `'['` nor
`']'` and is not itself a substring of the placeholder (in particular it
is nonempty).  The claim's original caveat — the name merely not
containing the placeholder — is insufficient, as the counterexample
shows. -/
theorem spec_c7_amended (senderAddr to_email applicant_name : String)
    (email_body : List Char) (cvExists : Bool)
    (h1 : '[' ∉ applicant_name.data) (h2 : ']' ∉ applicant_name.data)
    (h3 : ¬ applicant_name.data <:+: placeholder) :
    ¬ placeholder <:+:
      (create_email_message senderAddr to_email applicant_name email_body cvExists).body :=
  replace_no_placeholder applicant_name.data h1 h2 h3 email_body.length email_body le_rfl

/-- C7 witness: a realistic applicant name leaves no placeholder in the
finalized body. -/
theorem spec_c7_witness :
    ¬ placeholder <:+:
      (create_email_message "me@x.com" "a@x.com" "Mehmet"
        "Sayın [AD SOYAD], merhaba [AD SOYAD]".data true).body :=
  spec_c7_amended "me@x.com" "a@x.com" "Mehmet" "Sayın [AD SOYAD], merhaba [AD SOYAD]".data
    true (by decide) (by decide) (by decide)

/-! ## Claim C4: cleanup filter

The line filter in `_clean_response` keeps only lines that are non-blank
after stripping (`and line.strip()`), so blank lines are removed outright
rather than collapsed to a single blank line; the subsequent
`re.sub(r'\n\s*\n', '\n\n', ...)` then has nothing to match.  The lemmas
below establish exactly that: the collapse pass is the identity on the
joined kept lines, and every line of the final output is non-blank and
free of the metadata markers. -/

theorem mem_takeWhile_mem {p : Char → Bool} {x : Char} :
    ∀ {l : List Char}, x ∈ l.takeWhile p → x ∈ l := by
  intro l
  induction l with
  | nil => intro h; simp at h
  | cons a l ih =>
    intro h
    rw [List.takeWhile_cons] at h
    by_cases ha : p a
    · rw [if_pos ha, List.mem_cons] at h
      rcases h with h | h
      · exact h ▸ List.mem_cons_self a l
      · exact List.mem_cons_of_mem a (ih h)
    · rw [if_neg ha] at h
      simp at h

theorem takeWhile_append_stop {p t : List Char} (h : ∃ c ∈ p, isWs c = false) :
    (p ++ t).takeWhile isWs = p.takeWhile isWs := by
  induction p with
  | nil => simp at h
  | cons a p ih =>
    rw [List.cons_append, List.takeWhile_cons, List.takeWhile_cons]
    by_cases ha : isWs a
    · rw [if_pos ha, if_pos ha]
      obtain ⟨c, hc, hcw⟩ := h
      rcases List.mem_cons.mp hc with rfl | hc2
      · rw [ha] at hcw
        cases hcw
      · rw [ih ⟨c, hc2, hcw⟩]
    · rw [if_neg ha, if_neg ha]

theorem dropWhile_append_stop {p t : List Char} (h : ∃ c ∈ p, isWs c = false) :
    (p ++ t).dropWhile isWs = p.dropWhile isWs ++ t := by
  induction p with
  | nil => simp at h
  | cons a p ih =>
    rw [List.cons_append, List.dropWhile_cons, List.dropWhile_cons]
    by_cases ha : isWs a
    · rw [if_pos ha, if_pos ha]
      obtain ⟨c, hc, hcw⟩ := h
      rcases List.mem_cons.mp hc with rfl | hc2
      · rw [ha] at hcw
        cases hcw
      · exact ih ⟨c, hc2, hcw⟩
    · rw [if_neg ha, if_neg ha, List.cons_append]

theorem exists_nonws_dropWhile {p : List Char} (h : ∃ c ∈ p, isWs c = false) :
    ∃ c ∈ p.dropWhile isWs, isWs c = false := by
  induction p with
  | nil => simp at h
  | cons a p ih =>
    rw [List.dropWhile_cons]
    by_cases ha : isWs a
    · rw [if_pos ha]
      obtain ⟨c, hc, hcw⟩ := h
      rcases List.mem_cons.mp hc with rfl | hc2
      · rw [ha] at hcw
        cases hcw
      · exact ih ⟨c, hc2, hcw⟩
    · rw [if_neg ha]
      exact ⟨a, List.mem_cons_self a p, by simpa using ha⟩

theorem splitNl_ne_nil : ∀ l : List Char, splitNl l ≠ [] := by
  intro l
  cases l with
  | nil => simp [splitNl]
  | cons c rest =>
    rw [splitNl]
    by_cases hc : c = '\n'
    · rw [if_pos hc]
      simp
    · rw [if_neg hc]
      rcases hs : splitNl rest with _ | ⟨p, ps⟩ <;> simp

theorem splitNl_no_nl : ∀ (l : List Char), ∀ p ∈ splitNl l, '\n' ∉ p := by
  intro l
  induction l with
  | nil =>
    intro p hp
    simp only [splitNl, List.mem_singleton] at hp
    simp [hp]
  | cons c rest ih =>
    intro p hp
    rw [splitNl] at hp
    by_cases hc : c = '\n'
    · rw [if_pos hc, List.mem_cons] at hp
      rcases hp with rfl | hp
      · simp
      · exact ih p hp
    · rw [if_neg hc] at hp
      rcases hs : splitNl rest with _ | ⟨q, qs⟩
      · rw [hs, List.mem_singleton] at hp
        subst hp
        simp only [List.mem_singleton]
        exact fun h1 => hc h1.symm
      · rw [hs, List.mem_cons] at hp
        rcases hp with rfl | hp
        · intro hmem
          rcases List.mem_cons.mp hmem with h1 | h1
          · exact hc h1.symm
          · exact ih q (hs ▸ List.mem_cons_self q qs) h1
        · exact ih p (hs ▸ List.mem_cons_of_mem q hp)

theorem splitNl_append_cons {p : List Char} (t : List Char) (h : '\n' ∉ p) :
    splitNl (p ++ '\n' :: t) = p :: splitNl t := by
  induction p with
  | nil =>
    rw [List.nil_append, splitNl, if_pos rfl]
  | cons a p ih =>
    have ha : a ≠ '\n' := fun heq => h (heq ▸ List.mem_cons_self a p)
    rw [List.cons_append, splitNl, if_neg ha, ih (fun hm => h (List.mem_cons_of_mem a hm))]

theorem splitNl_no_nl_eq {p : List Char} (h : '\n' ∉ p) : splitNl p = [p] := by
  induction p with
  | nil => rfl
  | cons a p ih =>
    have ha : a ≠ '\n' := fun heq => h (heq ▸ List.mem_cons_self a p)
    rw [splitNl, if_neg ha, ih (fun hm => h (List.mem_cons_of_mem a hm))]

theorem joinNl_cons_cons (p q : List Char) (ps : List (List Char)) :
    joinNl (p :: q :: ps) = p ++ '\n' :: joinNl (q :: ps) := rfl

theorem splitNl_joinNl :
    ∀ (ps : List (List Char)), ps ≠ [] → (∀ p ∈ ps, '\n' ∉ p) →
      splitNl (joinNl ps) = ps := by
  intro ps
  induction ps with
  | nil => intro h; exact absurd rfl h
  | cons p ps ih =>
    intro _ hnl
    cases ps with
    | nil =>
      show splitNl (joinNl [p]) = [p]
      exact splitNl_no_nl_eq (hnl p (List.mem_cons_self p []))
    | cons q ps2 =>
      rw [joinNl_cons_cons, splitNl_append_cons _ (hnl p (List.mem_cons_self _ _)),
        ih (by simp) (fun x hx => hnl x (List.mem_cons_of_mem p hx))]

def joinTail : List (List Char) → List Char
  | [] => []
  | q :: ps => '\n' :: joinNl (q :: ps)

theorem joinNl_cons_decomp (x : List Char) (ps : List (List Char)) :
    joinNl (x :: ps) = x ++ joinTail ps := by
  cases ps with
  | nil => simp [joinNl, joinTail]
  | cons q ps2 => rw [joinNl_cons_cons, joinTail]

theorem joinNl_concat :
    ∀ (ys : List (List Char)) (z : List Char), ys ≠ [] →
      joinNl (ys ++ [z]) = joinNl ys ++ '\n' :: z := by
  intro ys
  induction ys with
  | nil => intro z h; exact absurd rfl h
  | cons y ys ih =>
    intro z _
    cases ys with
    | nil => simp [joinNl]
    | cons y2 ys2 =>
      rw [List.cons_append, List.cons_append, joinNl_cons_cons, ← List.cons_append,
        ih z (by simp)]
      simp [joinNl_cons_cons, List.append_assoc]

theorem collapse_append_no_nl {p : List Char} (h : '\n' ∉ p) (l : List Char) :
    collapseSub (p ++ l) = p ++ collapseSub l := by
  induction p with
  | nil => simp
  | cons a p ih =>
    have ha : a ≠ '\n' := fun heq => h (heq ▸ List.mem_cons_self a p)
    rw [List.cons_append, collapseSub_cons, if_neg ha,
      ih (fun hm => h (List.mem_cons_of_mem a hm)), List.cons_append]

theorem collapse_joinNl :
    ∀ (ps : List (List Char)),
      (∀ p ∈ ps, '\n' ∉ p ∧ ∃ c ∈ p, isWs c = false) →
      collapseSub (joinNl ps) = joinNl ps := by
  intro ps
  induction ps with
  | nil => intro _; rfl
  | cons p ps ih =>
    intro h
    obtain ⟨hnl, hnb⟩ := h p (List.mem_cons_self p ps)
    cases ps with
    | nil =>
      show collapseSub (joinNl [p]) = joinNl [p]
      have h0 := collapse_append_no_nl hnl []
      rw [List.append_nil] at h0
      show collapseSub p = p
      rw [h0, collapseSub_nil, List.append_nil]
    | cons q ps2 =>
      obtain ⟨hnlq, hnbq⟩ := h q (List.mem_cons_of_mem p (List.mem_cons_self q ps2))
      rw [joinNl_cons_cons, collapse_append_no_nl hnl, collapseSub_cons, if_pos rfl]
      have hw : '\n' ∉ (joinNl (q :: ps2)).takeWhile isWs := by
        intro hmem
        rw [joinNl_cons_decomp, takeWhile_append_stop hnbq] at hmem
        exact hnlq (mem_takeWhile_mem hmem)
      rw [if_neg hw, ih (fun x hx => h x (List.mem_cons_of_mem p hx))]

theorem keepLine_spec {p : List Char} (h : keepLine p = true) :
    (∀ m ∈ linesToRemove, ¬ m <:+: pyStrip (pyLower p)) ∧ pyStrip p ≠ [] := by
  simp only [keepLine, Bool.and_eq_true, Bool.not_eq_true', List.any_eq_false,
    decide_eq_true_eq] at h
  obtain ⟨h1, h2⟩ := h
  refine ⟨fun m hm => ?_, h2⟩
  have := h1 m hm
  simpa using this

theorem marker_shape :
    ∀ m ∈ linesToRemove, m ≠ [] ∧ m.head?.all (fun c => !(isWs c)) = true ∧
      m.getLast?.all (fun c => !(isWs c)) = true := by
  decide

theorem infix_pyLower {m l : List Char} (h : m <:+: l) : pyLower m <:+: pyLower l := by
  obtain ⟨s, t, rfl⟩ := h
  refine ⟨pyLower s, pyLower t, ?_⟩
  simp [pyLower, List.flatMap_append]

theorem infix_dropWhile {m : List Char} (hm : m ≠ [])
    (hh : m.head?.all (fun c => !(isWs c)) = true) :
    ∀ {l : List Char}, m <:+: l → m <:+: l.dropWhile isWs := by
  intro l
  induction l with
  | nil =>
    intro h
    exact absurd (List.eq_nil_of_infix_nil h) hm
  | cons a l ih =>
    intro h
    rw [List.dropWhile_cons]
    by_cases ha : isWs a
    · rw [if_pos ha]
      rcases List.infix_cons_iff.mp h with h1 | h1
      · cases m with
        | nil => exact absurd rfl hm
        | cons x m2 =>
          obtain ⟨heq, _⟩ := List.cons_prefix_cons.mp h1
          rw [List.head?_cons, Option.all_some, heq, ha] at hh
          cases hh
      · exact ih h1
    · rw [if_neg ha]
      exact h

theorem infix_pyStrip {m l : List Char} (hm : m ≠ [])
    (hh : m.head?.all (fun c => !(isWs c)) = true)
    (hl : m.getLast?.all (fun c => !(isWs c)) = true)
    (h : m <:+: l) : m <:+: pyStrip l := by
  have s1 : m <:+: l.dropWhile isWs := infix_dropWhile hm hh h
  have s2 : m.reverse <:+: (l.dropWhile isWs).reverse := List.reverse_infix.mpr s1
  have hh2 : m.reverse.head?.all (fun c => !(isWs c)) = true := by
    rw [List.head?_reverse]
    exact hl
  have s3 : m.reverse <:+: ((l.dropWhile isWs).reverse).dropWhile isWs :=
    infix_dropWhile (by simpa using hm) hh2 s2
  have s4 := List.reverse_infix.mpr s3
  rw [List.reverse_reverse] at s4
  exact s4

theorem pyStrip_infix_self (l : List Char) : pyStrip l <:+: l := by
  have h1 : (l.dropWhile isWs).reverse.dropWhile isWs <:+ (l.dropWhile isWs).reverse :=
    List.dropWhile_suffix isWs
  have h2 : ((l.dropWhile isWs).reverse.dropWhile isWs).reverse <+:
      ((l.dropWhile isWs).reverse).reverse := List.reverse_prefix.mpr h1
  rw [List.reverse_reverse] at h2
  exact h2.isInfix.trans (List.dropWhile_suffix isWs).isInfix

theorem pyStrip_ne_nil_exists {p : List Char} (h : pyStrip p ≠ []) :
    ∃ c ∈ p, isWs c = false := by
  by_contra hc
  push_neg at hc
  have hall : p.dropWhile isWs = [] := by
    rw [List.dropWhile_eq_nil_iff]
    intro x hx
    have := hc x hx
    simpa [Bool.not_eq_false] using this
  apply h
  rw [show pyStrip p = ((p.dropWhile isWs).reverse.dropWhile isWs).reverse from rfl, hall]
  rfl

def backStrip (l : List Char) : List Char :=
  (l.reverse.dropWhile isWs).reverse

theorem backStrip_append {z : List Char} (hz : ∃ c ∈ z, isWs c = false) (B : List Char) :
    backStrip (B ++ '\n' :: z) = B ++ '\n' :: backStrip z := by
  unfold backStrip
  rw [List.reverse_append, List.reverse_cons, List.append_assoc,
    show ['\n'] ++ B.reverse = '\n' :: B.reverse from rfl]
  have hz2 : ∃ c ∈ z.reverse, isWs c = false := by
    obtain ⟨c, hc, hw⟩ := hz
    exact ⟨c, List.mem_reverse.mpr hc, hw⟩
  rw [dropWhile_append_stop hz2, List.reverse_append, List.reverse_cons,
    List.reverse_reverse, List.append_assoc]
  rfl

theorem backStrip_isPre (z : List Char) : backStrip z <+: z := by
  have h1 : z.reverse.dropWhile isWs <:+ z.reverse := List.dropWhile_suffix isWs
  have h2 := List.reverse_prefix.mpr h1
  rw [List.reverse_reverse] at h2
  exact h2

theorem backStrip_exists_nonws {z : List Char} (hz : ∃ c ∈ z, isWs c = false) :
    ∃ c ∈ backStrip z, isWs c = false := by
  obtain ⟨c, hc, hw⟩ := hz
  obtain ⟨c2, hc2, hw2⟩ := exists_nonws_dropWhile ⟨c, List.mem_reverse.mpr hc, hw⟩
  exact ⟨c2, List.mem_reverse.mpr hc2, hw2⟩

theorem pyStrip_exists_nonws {p : List Char} (hp : ∃ c ∈ p, isWs c = false) :
    ∃ c ∈ pyStrip p, isWs c = false :=
  backStrip_exists_nonws (exists_nonws_dropWhile hp)

theorem pyStrip_joinNl_pieces :
    ∀ (ps : List (List Char)), ps ≠ [] →
      (∀ p ∈ ps, '\n' ∉ p ∧ ∃ c ∈ p, isWs c = false) →
      ∃ qs : List (List Char),
        pyStrip (joinNl ps) = joinNl qs ∧ qs ≠ [] ∧
          ∀ q ∈ qs, ('\n' ∉ q ∧ (∃ c ∈ q, isWs c = false) ∧ ∃ x ∈ ps, q <:+: x) := by
  intro ps hne h
  cases ps with
  | nil => exact absurd rfl hne
  | cons p ps2 =>
    rcases List.eq_nil_or_concat ps2 with rfl | ⟨mid, z, hps⟩
    · obtain ⟨hnl, hnb⟩ := h p (by simp)
      refine ⟨[pyStrip p], rfl, by simp, ?_⟩
      intro q hq
      rw [List.mem_singleton] at hq
      subst hq
      refine ⟨fun hm => hnl ((pyStrip_infix_self p).subset hm),
        pyStrip_exists_nonws hnb, p, by simp, pyStrip_infix_self p⟩
    · rw [List.concat_eq_append] at hps
      subst hps
      obtain ⟨hnlp, hnbp⟩ := h p (by simp)
      obtain ⟨hnlz, hnbz⟩ := h z (by simp)
      have hj : joinNl (p :: (mid ++ [z])) = joinNl (p :: mid) ++ '\n' :: z := by
        have h2 := joinNl_concat (p :: mid) z (by simp)
        rw [List.cons_append] at h2
        exact h2
      have hfront : (joinNl (p :: mid) ++ '\n' :: z).dropWhile isWs =
          joinNl (p.dropWhile isWs :: mid) ++ '\n' :: z := by
        rw [joinNl_cons_decomp p mid, List.append_assoc, dropWhile_append_stop hnbp,
          ← List.append_assoc, ← joinNl_cons_decomp]
      have hback : backStrip (joinNl (p.dropWhile isWs :: mid) ++ '\n' :: z) =
          joinNl (p.dropWhile isWs :: mid) ++ '\n' :: backStrip z :=
        backStrip_append hnbz _
      refine ⟨p.dropWhile isWs :: (mid ++ [backStrip z]), ?_, by simp, ?_⟩
      · rw [show pyStrip (joinNl (p :: (mid ++ [z]))) =
            backStrip ((joinNl (p :: (mid ++ [z]))).dropWhile isWs) from rfl, hj, hfront,
          hback, ← joinNl_concat (p.dropWhile isWs :: mid) (backStrip z) (by simp),
          List.cons_append]
      · intro q hq
        rcases List.mem_cons.mp hq with rfl | hq2
        · exact ⟨fun hm => hnlp ((List.dropWhile_suffix isWs).subset hm),
            exists_nonws_dropWhile hnbp, p, by simp, (List.dropWhile_suffix isWs).isInfix⟩
        · rcases List.mem_append.mp hq2 with hmid | hqz
          · have hmem : q ∈ p :: (mid ++ [z]) := by simp [hmid]
            obtain ⟨hnlq, hnbq⟩ := h q hmem
            exact ⟨hnlq, hnbq, q, hmem, List.infix_rfl⟩
          · rw [List.mem_singleton] at hqz
            subst hqz
            exact ⟨fun hm => hnlz ((backStrip_isPre z).subset hm),
              backStrip_exists_nonws hnbz, z, by simp, (backStrip_isPre z).isInfix⟩

/-- C4 counterexample: the filter keeps only lines that are non-blank
after stripping, so a run of blank lines is removed entirely, not
collapsed to exactly one blank line as the claim states: on
`"a\n\n\n\nb"` the cleaned output is `"a\nb"`, not `"a\n\nb"`. -/
theorem spec_c4_counterexample :
    clean_response "a\n\n\n\nb".data = "a\nb".data ∧
      clean_response "a\n\n\n\nb".data ≠ "a\n\nb".data := by
  refine ⟨by rfl, by decide⟩

/-- C4 (corrected): the cleanup filter removes every line whose
lowercased form contains a metadata-label substring, removes every blank
line outright (so the output — unless empty — consists solely of
non-blank, marker-free lines, with no blank line between them), and trims
surrounding whitespace; the blank-collapse regex pass is the identity on
the already-filtered text. -/
theorem spec_c4_amended (r : List Char) :
    clean_response r = [] ∨
      ∀ q ∈ splitNl (clean_response r),
        (∃ c ∈ q, isWs c = false) ∧ ∀ m ∈ linesToRemove, ¬ m <:+: pyLower q := by
  by_cases hk : (splitNl (pyStrip r)).filter keepLine = []
  · left
    show pyStrip (collapseSub (joinNl ((splitNl (pyStrip r)).filter keepLine))) = []
    rw [hk]
    rfl
  · right
    have hprops : ∀ p ∈ (splitNl (pyStrip r)).filter keepLine,
        '\n' ∉ p ∧ ∃ c ∈ p, isWs c = false := by
      intro p hp
      rw [List.mem_filter] at hp
      exact ⟨splitNl_no_nl (pyStrip r) p hp.1,
        pyStrip_ne_nil_exists (keepLine_spec hp.2).2⟩
    have hmarker : ∀ p ∈ (splitNl (pyStrip r)).filter keepLine,
        ∀ m ∈ linesToRemove, ¬ m <:+: pyStrip (pyLower p) := by
      intro p hp
      rw [List.mem_filter] at hp
      exact (keepLine_spec hp.2).1
    have hcr : clean_response r =
        pyStrip (joinNl ((splitNl (pyStrip r)).filter keepLine)) := by
      show pyStrip (collapseSub (joinNl ((splitNl (pyStrip r)).filter keepLine))) = _
      rw [collapse_joinNl _ hprops]
    obtain ⟨qs, hqs, hqne, hqprops⟩ :=
      pyStrip_joinNl_pieces ((splitNl (pyStrip r)).filter keepLine) hk hprops
    rw [hcr, hqs, splitNl_joinNl qs hqne (fun q hq => (hqprops q hq).1)]
    intro q hq
    obtain ⟨hqnl, hqnb, x, hx, hqx⟩ := hqprops q hq
    refine ⟨hqnb, fun m hm hinf => ?_⟩
    obtain ⟨hmne, hmh, hml⟩ := marker_shape m hm
    exact hmarker x hx m hm
      (infix_pyStrip hmne hmh hml (hinf.trans (infix_pyLower hqx)))

/-- C4 witness: on a concrete response with a metadata line and a blank
run, an output line is non-blank and marker-free. -/
theorem spec_c4_witness :
    (∃ c ∈ "Hello".data, isWs c = false) ∧
      ∀ m ∈ linesToRemove, ¬ m <:+: pyLower "Hello".data :=
  ((spec_c4_amended "Subject: hi\nHello\n\nWorld".data).resolve_left (by decide))
    "Hello".data (by decide)
